import Mathlib

/-!
Shallow embedding of `examples/cim/ac_gnn/agent/gnn_based_actor_critic.py`
(GNN-based actor-critic agent of the maro repository).

Tensors are modelled as nested lists: a rank-2 tensor is `Mat α`, rank 3 is
`T3 α`, rank 4 is `T4 α`.  `torch.long` entries are `ℤ`, floating point
entries are `ℚ` (every numeric scenario below uses values and operations that
are exact in both float32 and ℚ).  In-place tensor mutation
(`embedding += addon; embedding[mask] = 0`) is modelled by returning the
post-call contents of the mutated buffer alongside the function result:
`torch.from_numpy` shares memory with the numpy input, `.long()` and
`.to(device)` are identities for int64 arrays on the default CPU device, so
the numpy arrays held in the caller's state dictionary alias the tensors that
`flatten_embedding` mutates.
-/

namespace GnnAC

abbrev Mat (α : Type) : Type := List (List α)

abbrev T3 (α : Type) : Type := List (Mat α)

abbrev T4 (α : Type) : Type := List (T3 α)

/-- `GNNBasedActorCriticConfig`: the `__slots__` of the python class. -/
structure Config where
  p2p_adj : Mat ℤ
  td_steps : ℕ
  reward_discount : ℚ
  value_discount : ℚ
  actor_loss_coefficient : ℚ
  entropy_factor : ℚ
deriving DecidableEq

/-- `GNNBasedActorCriticConfig.__init__`: note that the source sets
`self.value_discount = reward_discount ** 100` with a literal `100`
(source line 41), not `reward_discount ** td_steps`. -/
def mkConfig (p2p_adj : Mat ℤ) (td_steps : ℕ) (reward_discount : ℚ)
    (actor_loss_coefficient : ℚ) (entropy_factor : ℚ) : Config :=
  ⟨p2p_adj, td_steps, reward_discount, reward_discount ^ 100,
    actor_loss_coefficient, entropy_factor⟩

/-- The broadcast add `embedding += addon` performed on one entry. -/
def offsetEntry (addon : ℤ) (x : ℤ) : ℤ := x + addon

/-- The restore step `embedding[embedding_mask] = 0`: entries whose
pre-offset snapshot mask (`embedding == 0`) is true are set back to 0. -/
def restoreZero (wasZero : Bool) (x : ℤ) : ℤ := if wasZero then 0 else x

/-- Offsetting one batch element of the adjacency: snapshot the zero mask,
add the batch addon everywhere, then restore the masked entries to 0. -/
def applyAddon (addon : ℤ) (mat : Mat ℤ) : Mat ℤ :=
  mat.map fun row => row.map fun x => restoreZero (x == 0) (offsetEntry addon x)

/-- The rank-3 offset stage of `flatten_embedding`: batch element `b` gets
addon `batch_range[b] * y_cnt` (the `(batch_range * y_cnt).view(batch, 1, 1)`
broadcast). -/
def offsetStage (emb : T3 ℤ) (batch_range : List ℤ) (y_cnt : ℕ) : T3 ℤ :=
  (emb.zip batch_range).map fun mb => applyAddon (mb.2 * (y_cnt : ℤ)) mb.1

/-- Column sum of a row-major matrix: `ret.sum(dim=0)` at column `j`. -/
def colSum (m : Mat ℤ) (j : ℕ) : ℤ := (m.map fun r => r.getD j 0).sum

/-- `col_mask = ret.sum(dim=0) != 0` for the `y` columns of `m`. -/
def colMaskList (m : Mat ℤ) (y : ℕ) : List Bool :=
  (List.range y).map fun j => colSum m j != 0

/-- Boolean-mask column selection `ret[:, col_mask]` applied to one row. -/
def maskFilter {α : Type} : List Bool → List α → List α
  | b :: bs, x :: xs => if b then x :: maskFilter bs xs else maskFilter bs xs
  | _, _ => []

/-- The column-compaction step of `flatten_embedding`: drop every column of
`m` (of width `y`) whose column sum is zero. -/
def filterCols (y : ℕ) (m : Mat ℤ) : Mat ℤ :=
  m.map (maskFilter (colMaskList m y))

/-- `embedding.shape[2]` for a rank-3 nested list. -/
def yCntOf (emb : T3 ℤ) : ℕ := ((emb.headD []).headD []).length

/-- `GNNBasedActorCritic.flatten_embedding` on the rank-3 path.  Returns
`(post-call contents of the embedding buffer, ret, filtered edge)`: the
first component records the in-place `embedding += addon` /
`embedding[mask] = 0` mutation, `ret` is the flattened and column-compacted
adjacency, and the edge tensor (when given) is row-flattened by
`edge.reshape(-1, *edge.shape[2:])` and filtered with the same column mask. -/
def flatten_embedding (emb : T3 ℤ) (batch_range : List ℤ)
    (edge : Option (T4 ℚ)) : T3 ℤ × Mat ℤ × Option (T3 ℚ) :=
  let y_cnt := yCntOf emb
  let newEmb := offsetStage emb batch_range y_cnt
  let ret0 := newEmb.flatten
  let ret := filterCols y_cnt ret0
  match edge with
  | none => (newEmb, ret, none)
  | some e => (newEmb, ret, some ((e.flatten).map (maskFilter (colMaskList ret0 y_cnt))))

/-- Errors surfaced by the python runtime in the modelled paths. -/
inductive PyError : Type where
  | indexError : PyError
  | viewError : PyError
deriving DecidableEq

/-- `GNNBasedActorCritic.flatten_embedding` on the rank-4 path.  The addon
is built by `(batch_range * y_cnt).view(seq_len, batch, 1, 1)`: a `view`
succeeds only when the element count `batch_range.length` equals
`seq_len * batch`, otherwise torch raises a shape error. -/
def flatten_embedding4 (emb : T4 ℤ) (batch_range : List ℤ) :
    Except PyError (Mat ℤ) :=
  let seq_len := emb.length
  let batch := (emb.headD []).length
  let y_cnt := (((emb.headD []).headD []).headD []).length
  if batch_range.length = seq_len * batch then
    let newEmb := (emb.zip (List.range seq_len)).map fun tsi =>
      (tsi.1.zip (List.range batch)).map fun mbi =>
        applyAddon (batch_range.getD (tsi.2 * batch + mbi.2) 0 * (y_cnt : ℤ)) mbi.1
    let flat := newEmb.flatten.flatten
    Except.ok (filterCols y_cnt flat)
  else Except.error PyError.viewError

/-- Batched raw state (the rank-4 branch of `union`): `v`/`p` are
`(seq_len, batch, node, feature)`, `vo`/`po` are `(batch, node, y)`
adjacency index arrays, edges are rank 4, `mask` is the sequence mask. -/
structure BState where
  v : T4 ℚ
  p : T4 ℚ
  vo : T3 ℤ
  po : T3 ℤ
  pedge : T4 ℚ
  vedge : T4 ℚ
  ppedge : T4 ℚ
  seq_mask : Mat Bool
  p_idx : ℕ
  v_idx : ℕ
deriving DecidableEq

/-- Single-sample raw state (rank 3 for `p`/`v`), as detected by
`len(state["p"].shape) == 3`. -/
structure SState where
  v : T3 ℚ
  p : T3 ℚ
  vo : Mat ℤ
  po : Mat ℤ
  pedge : T3 ℚ
  vedge : T3 ℚ
  ppedge : T3 ℚ
  seq_mask : List Bool
  p_idx : ℕ
  v_idx : ℕ
deriving DecidableEq

/-- The `np.expand_dims` normalisation at the top of `union`: `v`/`p` gain a
batch axis at position 1, everything else gains it at position 0. -/
def expandState (s : SState) : BState :=
  ⟨s.v.map fun x => [x], s.p.map fun x => [x],
    [s.vo], [s.po], [s.pedge], [s.vedge], [s.ppedge], [s.seq_mask],
    s.p_idx, s.v_idx⟩

/-- A raw state as received by `choose_action`/`union`: either a single
sample or an explicit batch. -/
abbrev RawState : Type := SState ⊕ BState

/-- The batched-graph dictionary returned by `union`. -/
structure Graph where
  v : T4 ℚ
  p : T4 ℚ
  pe_edge : T3 ℚ
  pe_adj : Mat ℤ
  pe_mask : Mat Bool
  ve_edge : T3 ℚ
  ve_adj : Mat ℤ
  ve_mask : Mat Bool
  ppe_edge : T3 ℚ
  ppe_adj : Mat ℤ
  ppe_mask : Mat Bool
  seq_mask : Mat Bool
deriving DecidableEq

/-- `GNNBasedActorCritic.union` on the batched path, after the tensors have
been placed on the device.  Returns the output graph together with the
post-call contents of the state's `vo`/`po` buffers (which alias the
tensors mutated in place by `flatten_embedding`; `p2p_adj` is protected by
the copy that `repeat` makes). -/
def unionB (cfg : Config) (st : BState) : Graph × BState :=
  let batch := (st.v.headD []).length
  let batch_range := (List.range batch).map Int.ofNat
  let rv := flatten_embedding st.vo batch_range (some st.vedge)
  let vmask := rv.2.1.map fun r => r.map fun x => x == 0
  let vadj := rv.2.1.transpose
  let vedge := (rv.2.2.getD []).transpose
  let rp := flatten_embedding st.po batch_range (some st.pedge)
  let pmask := rp.2.1.map fun r => r.map fun x => x == 0
  let padj := rp.2.1.transpose
  let pedge := (rp.2.2.getD []).transpose
  let p2p3 := List.replicate batch cfg.p2p_adj
  let rpp := flatten_embedding p2p3 batch_range (some st.ppedge)
  let ppmask := rpp.2.1.map fun r => r.map fun x => x == 0
  let ppadj := rpp.2.1.transpose
  let ppedge := (rpp.2.2.getD []).transpose
  (⟨st.v, st.p, pedge, padj, pmask, vedge, vadj, vmask,
      ppedge, ppadj, ppmask, st.seq_mask⟩,
    { st with vo := rv.1, po := rp.1 })

/-- `GNNBasedActorCritic.union`: single inputs are expanded to batch size 1
and sent through the common path; because `np.expand_dims` returns a view,
the mutation of the expanded buffer is a mutation of the original array, so
the single branch writes the (collapsed) mutated buffers back. -/
def union (cfg : Config) : RawState → Graph × RawState
  | Sum.inl s =>
    let r := unionB cfg (expandState s)
    (r.1, Sum.inl { s with vo := r.2.vo.headD [], po := r.2.po.headD [] })
  | Sum.inr b =>
    let r := unionB cfg b
    (r.1, Sum.inr r.2)

/-- `GNNBasedActorCritic.choose_action`.  The external model is a parameter
(`model graph p_idx v_idx` returns the `action_prob` batch), the
pseudo-random categorical draw is modelled as a function `sample` of the
distribution parameters, and `logFn` stands for the real logarithm used by
`Categorical.log_prob` (applied to the normalised probability of the drawn
action).  For single input the batch axis is unwrapped (`action[0]`,
`log_p[0]`). -/
def choose_action (cfg : Config) (model : Graph → ℕ → ℕ → Mat ℚ)
    (sample : Mat ℚ → List ℕ) (logFn : ℚ → ℚ) (st : RawState) :
    (ℕ × ℚ) ⊕ (List ℕ × List ℚ) :=
  let pIdx := match st with | Sum.inl s => s.p_idx | Sum.inr b => b.p_idx
  let vIdx := match st with | Sum.inl s => s.v_idx | Sum.inr b => b.v_idx
  let probs := model (union cfg st).1 pIdx vIdx
  let action := sample probs
  let log_p := (probs.zip action).map fun pa => logFn (pa.1.getD pa.2 0 / pa.1.sum)
  match st with
  | Sum.inl _ => Sum.inl (action.getD 0 0, log_p.getD 0 0)
  | Sum.inr _ => Sum.inr (action, log_p)

/-- The per-port advantage of `learn`:
`advantage = returns + value_discount * values_.detach() - values`.
`returns` is a rank-1 tensor, so torch broadcasting aligns it with the
trailing (port) axis of the `(batch, p_cnt)` value tensors:
entry `[b][p]` is `returns[p] + value_discount * values_[b][p] - values[b][p]`. -/
def advantageBase (vd : ℚ) (returns : List ℚ) (values values_ : Mat ℚ) :
    Mat ℚ :=
  (values.zip values_).map fun bv =>
    (List.range bv.1.length).map fun p =>
      returns.getD p 0 + vd * bv.2.getD p 0 - bv.1.getD p 0

/-- The entropy branch of `learn`: when `entropy_factor != 0`, the column at
the acting port index receives `entropy_factor * entropy_loss.detach()`
(`advantage[:, p_idx] += ...`); otherwise the branch is skipped and the
advantage tensor is returned untouched. -/
def advantageAdjusted (ef : ℚ) (pIdx : ℕ) (entropy : List ℚ) (adv : Mat ℚ) :
    Mat ℚ :=
  if ef ≠ 0 then
    (adv.zip entropy).map fun re =>
      (re.1.zip (List.range re.1.length)).map fun xp =>
        if xp.2 = pIdx then xp.1 + ef * re.2 else xp.1
  else adv

/-- Mean of a list of rationals (`torch.mean` over the batch axis). -/
def listMean (xs : List ℚ) : ℚ := xs.sum / (xs.length : ℚ)

/-- `critic_loss = torch.sum(advantage.pow(2), axis=1).mean()`. -/
def criticLoss (adv : Mat ℚ) : ℚ :=
  listMean (adv.map fun row => (row.map fun x => x ^ 2).sum)

/-- Python `str.split(sep)` for a one-character separator, on char lists;
`acc` accumulates the current (reversed) piece. -/
def splitChar (sep : Char) : List Char → List Char → List (List Char)
  | [], acc => [acc.reverse]
  | c :: cs, acc =>
    if c = sep then acc.reverse :: splitChar sep cs []
    else splitChar sep cs (c :: acc)

/-- Python `"ac" in f`: substring test for the two-character pattern. -/
def containsAC : List Char → Bool
  | a :: c :: rest => (a == 'a' && c == 'c') || containsAC (c :: rest)
  | _ => false

/-- Digit-string accumulator for Python `int(...)` on a nonnegative
numeral. -/
def digitsVal : List Char → ℕ → Option ℕ
  | [], n => some n
  | c :: cs, n =>
    if c.isDigit then digitsVal cs (10 * n + (c.toNat - 48)) else none

/-- Python `int(s)` for the nonnegative numerals appearing in checkpoint
names (`none` models the `ValueError` raised on a non-numeral). -/
def pyInt : List Char → Option ℕ
  | [] => none
  | c :: cs => digitsVal (c :: cs) 0

/-- `GNNBasedActorCritic._get_save_idx`: the leading integer of the
filename, `int(fp_str.split(".")[0].split("_")[0])`. -/
def getSaveIdx (f : String) : ℕ :=
  (pyInt ((splitChar '_' ((splitChar '.' f.toList []).headD []) []).headD [])).getD 0

/-- Stable insertion of a filename into a list sorted ascending by
`_get_save_idx`. -/
def insertByKey (x : String) : List String → List String
  | [] => [x]
  | y :: ys =>
    if getSaveIdx x ≤ getSaveIdx y then x :: y :: ys
    else y :: insertByKey x ys

/-- `fps.sort(key=self._get_save_idx)`: ascending sort by the parsed
leading integer. -/
def sortByKey : List String → List String
  | [] => []
  | x :: xs => insertByKey x (sortByKey xs)

/-- The checkpoint-selection logic of `GNNBasedActorCritic.load_model`:
with `idx == -1` the folder listing is filtered to names containing the
substring `"ac"`, sorted ascending by `_get_save_idx`, and the last entry
is taken (`fps[-1]`, which on an empty list raises `IndexError`); otherwise
the exact filename for `idx` is used. -/
def load_model_select (files : List String) (idx : ℤ) : Except PyError String :=
  if idx = -1 then
    let fps := files.filter fun f => containsAC f.toList
    let sorted := sortByKey fps
    match sorted.getLast? with
    | some f => Except.ok f
    | none => Except.error PyError.indexError
  else Except.ok (toString idx ++ "_ac.pkl")

/-- Entry accessor for a rank-3 integer tensor (defaults outside range). -/
def entry3 (t : T3 ℤ) (b i j : ℕ) : ℤ := ((t.getD b []).getD i []).getD j 0

/-- Entry accessor for a rank-2 rational tensor (defaults outside range). -/
def entry2 (m : Mat ℚ) (b p : ℕ) : ℚ := (m.getD b []).getD p 0

/-- The indices of the columns that survive the compaction step: those
whose column sum over all flattened rows is nonzero. -/
def keptCols (m : Mat ℤ) (y : ℕ) : List ℕ :=
  (List.range y).filter fun j => colSum m j != 0


/-- Concrete configuration for the union scenarios (fields
`p2p_adj, td_steps, reward_discount, value_discount,
actor_loss_coefficient, entropy_factor`). -/
def unionCfgC : Config := ⟨[[0, 1], [1, 0]], 100, 1, 1, 1, 0⟩

/-- Concrete batch-2 raw state: every sample has one vessel, two ports
(adjacency width 2), and adjacency rows `[1, 0]`. -/
def unionStC : BState :=
  ⟨[[[[0]], [[0]]]], [[[[0]], [[0]]]],
    [[[1, 0]], [[1, 0]]], [[[1, 0]], [[1, 0]]],
    [[[[1], [0]]], [[[1], [0]]]], [[[[1], [0]]], [[[1], [0]]]],
    [[[[1], [1]], [[1], [1]]], [[[1], [1]], [[1], [1]]]],
    [[true]], 0, 0⟩

/-- Concrete single-sample raw state matching one sample of `unionStC`. -/
def unionSW : SState :=
  ⟨[[[0]]], [[[0]]], [[1, 0]], [[1, 0]], [[[1], [0]]], [[[1], [0]]],
    [[[1], [1]], [[1], [1]]], [true], 0, 0⟩

theorem applyAddon_entry (a : ℤ) (m : Mat ℤ) (i j : ℕ) :
    ((applyAddon a m).getD i []).getD j 0 =
      if (m.getD i []).getD j 0 = 0 then 0 else (m.getD i []).getD j 0 + a := by
  rcases Nat.lt_or_ge i m.length with hi | hi
  · have hi2 : i < (applyAddon a m).length := by
      simpa only [applyAddon, List.length_map] using hi
    rw [List.getD_eq_getElem _ _ hi2, List.getD_eq_getElem _ _ hi]
    have hmap : (applyAddon a m)[i] =
        (m[i]).map (fun x => restoreZero (x == 0) (offsetEntry a x)) := by
      simp [applyAddon]
    rw [hmap]
    rcases Nat.lt_or_ge j (m[i]).length with hj | hj
    · have hj2 : j <
          ((m[i]).map (fun x => restoreZero (x == 0) (offsetEntry a x))).length := by
        simpa only [List.length_map] using hj
      rw [List.getD_eq_getElem _ _ hj2, List.getD_eq_getElem _ _ hj,
        List.getElem_map]
      rcases eq_or_ne ((m[i])[j]) 0 with h0 | h0 <;>
        simp [restoreZero, offsetEntry, h0]
    · have h5 : ((m[i]).map (fun x => restoreZero (x == 0) (offsetEntry a x))).getD j 0 = 0 :=
        List.getD_eq_default _ _ (by simpa only [List.length_map] using hj)
      have h6 : (m[i]).getD j 0 = 0 := List.getD_eq_default _ _ hj
      rw [h5, h6]
      simp
  · have h3 : (applyAddon a m).getD i [] = [] :=
      List.getD_eq_default _ _ (by simpa only [applyAddon, List.length_map] using hi)
    have h4 : m.getD i [] = [] := List.getD_eq_default _ _ hi
    rw [h3, h4]
    simp

theorem getD_map_zip {α β γ : Type} (f : α × γ → β) (l1 : List α) (l2 : List γ)
    (b : ℕ) (d : β) (d1 : α) (d2 : γ) (h1 : b < l1.length) (h2 : b < l2.length) :
    ((l1.zip l2).map f).getD b d = f (l1.getD b d1, l2.getD b d2) := by
  have hz : b < (l1.zip l2).length := by
    rw [List.length_zip]; exact lt_min h1 h2
  have hm : b < ((l1.zip l2).map f).length := by simpa using hz
  rw [List.getD_eq_getElem _ _ hm, List.getElem_map, List.getElem_zip,
    List.getD_eq_getElem _ _ h1, List.getD_eq_getElem _ _ h2]

theorem offsetStage_entry (emb : T3 ℤ) (br : List ℤ) (y : ℕ) (b i j : ℕ)
    (hb : b < emb.length) (hbr : b < br.length) :
    entry3 (offsetStage emb br y) b i j =
      if entry3 emb b i j = 0 then 0
      else entry3 emb b i j + br.getD b 0 * (y : ℤ) := by
  unfold entry3 offsetStage
  rw [getD_map_zip _ _ _ _ _ [] 0 hb hbr]
  exact applyAddon_entry _ _ i j

/-- C4: in `flatten_embedding`, every entry of the local adjacency that is 0
before flattening is still 0 after the offset stage, and every nonzero
entry gets exactly its batch element's offset `batch_index * y_count`
added (the offset is never applied to the zero no-edge marker). -/
theorem flatten_embedding_offset_invariant (emb : T3 ℤ) (n b i j : ℕ)
    (hb : b < emb.length) (hn : b < n) :
    entry3 (flatten_embedding emb ((List.range n).map Int.ofNat) none).1 b i j =
      if entry3 emb b i j = 0 then 0
      else entry3 emb b i j + (b : ℤ) * (yCntOf emb : ℤ) := by
  have h1 : (flatten_embedding emb ((List.range n).map Int.ofNat) none).1 =
      offsetStage emb ((List.range n).map Int.ofNat) (yCntOf emb) := rfl
  have hbr : b < ((List.range n).map Int.ofNat).length := by simpa using hn
  rw [h1, offsetStage_entry emb _ _ b i j hb hbr]
  have h2 : ((List.range n).map Int.ofNat).getD b 0 = (b : ℤ) := by
    rw [List.getD_eq_getElem _ _ hbr, List.getElem_map, List.getElem_range]
    rfl
  rw [h2]

/-- C4 witness: the offset invariant evaluated at a concrete batch of two
adjacency matrices. -/
theorem flatten_embedding_offset_invariant_witness :
    entry3 (flatten_embedding [[[(1 : ℤ), 0]], [[2, 0]]]
        ((List.range 2).map Int.ofNat) none).1 1 0 0 =
      if entry3 [[[(1 : ℤ), 0]], [[2, 0]]] 1 0 0 = 0 then 0
      else entry3 [[[(1 : ℤ), 0]], [[2, 0]]] 1 0 0 +
        (1 : ℤ) * (yCntOf [[[(1 : ℤ), 0]], [[2, 0]]] : ℤ) :=
  flatten_embedding_offset_invariant [[[(1 : ℤ), 0]], [[2, 0]]] 2 1 0 0
    (by decide) (by decide)

/-- C1: the source sets `value_discount = reward_discount ** 100` with a
hardcoded exponent (the default `td_steps`), so for a configuration built
with `td_steps = 1` and `reward_discount = 1/2` the stored `value_discount`
is `(1/2)^100`, which differs from the documented `γ^td_steps = (1/2)^1`. -/
theorem config_value_discount_hardcoded :
    (mkConfig [] 1 (1/2) 0 0).td_steps = 1 ∧
    (mkConfig [] 1 (1/2) 0 0).value_discount = ((1 : ℚ)/2) ^ 100 ∧
    (mkConfig [] 1 (1/2) 0 0).value_discount ≠
      (mkConfig [] 1 (1/2) 0 0).reward_discount ^ (mkConfig [] 1 (1/2) 0 0).td_steps := by
  refine ⟨rfl, rfl, ?_⟩
  show ((1 : ℚ)/2) ^ 100 ≠ ((1 : ℚ)/2) ^ 1
  norm_num

/-- C3: `load_model` with `idx = -1` does pick the checkpoint with the
maximum parsed leading integer among names containing `"ac"`, but on an
empty or non-matching folder it fails with the index-out-of-range artifact
of `fps[-1]` (an `IndexError`), not with a clear no-checkpoint signal. -/
theorem load_model_empty_dir_index_error :
    load_model_select [] (-1) = Except.error PyError.indexError ∧
    load_model_select ["model.bin"] (-1) = Except.error PyError.indexError ∧
    load_model_select ["3_ac.pkl", "10_ac.pkl", "2_ac.pkl"] (-1) =
      Except.ok "10_ac.pkl" :=
  ⟨rfl, rfl, rfl⟩

/-- C10: on the rank-4 path of `flatten_embedding`, a `batch_range` of
length `batch` cannot be viewed as `(seq_len, batch, 1, 1)` when
`seq_len > 1` (and the batch is nonempty), so the call fails at the offset
reshape instead of returning a flattened result. -/
theorem flatten_embedding4_rank4_view_error (emb : T4 ℤ) (br : List ℤ)
    (hseq : 1 < emb.length) (hbatch : 0 < (emb.headD []).length)
    (hbr : br.length = (emb.headD []).length) :
    flatten_embedding4 emb br = Except.error PyError.viewError := by
  have hne : ¬ br.length = emb.length * (emb.headD []).length := by
    rw [hbr]
    intro hcontra
    have h2 : (1 : ℕ) * (emb.headD []).length <
        emb.length * (emb.headD []).length :=
      mul_lt_mul_of_pos_right hseq hbatch
    rw [one_mul] at h2
    rw [← hcontra] at h2
    exact lt_irrefl _ h2
  simp only [flatten_embedding4]
  rw [if_neg hne]

/-- C10 witness: a concrete `(2, 1, 1, 1)` adjacency with a length-1
`batch_range` hits the view failure. -/
theorem flatten_embedding4_rank4_view_error_witness :
    flatten_embedding4 [[[[(5 : ℤ)]]], [[[5]]]] [0] =
      Except.error PyError.viewError :=
  flatten_embedding4_rank4_view_error [[[[(5 : ℤ)]]], [[[5]]]] [0]
    (by decide) (by decide) (by decide)

theorem maskFilter_eq_select {α : Type} (d : α) :
    ∀ (bs : List Bool) (xs : List α), xs.length = bs.length →
      maskFilter bs xs =
        ((List.range bs.length).filter fun j => bs.getD j false).map
          fun j => xs.getD j d := by
  intro bs
  induction bs with
  | nil =>
    intro xs h
    rw [List.length_eq_zero.mp h]
    rfl
  | cons b bs2 ih =>
    intro xs h
    cases xs with
    | nil => simp at h
    | cons x xs2 =>
      have h2 : xs2.length = bs2.length := by simpa using h
      have hstep : maskFilter (b :: bs2) (x :: xs2) =
          if b then x :: maskFilter bs2 xs2 else maskFilter bs2 xs2 := rfl
      rw [hstep, ih xs2 h2]
      simp only [List.length_cons, List.range_succ_eq_map, List.filter_cons,
        List.filter_map, List.map_map, List.getD_cons_zero, List.getD_cons_succ]
      cases b with
      | true =>
        simp [Function.comp_def, apply_ite (List.map fun j => (x :: xs2).getD j d)]
      | false =>
        simp [Function.comp_def, apply_ite (List.map fun j => (x :: xs2).getD j d)]

theorem colMaskList_length (m : Mat ℤ) (y : ℕ) : (colMaskList m y).length = y := by
  simp [colMaskList]

theorem maskFilter_colMask {α : Type} (m : Mat ℤ) (y : ℕ) (xs : List α) (d : α)
    (h : xs.length = y) :
    maskFilter (colMaskList m y) xs = (keptCols m y).map fun j => xs.getD j d := by
  rw [maskFilter_eq_select d (colMaskList m y) xs (by rw [h, colMaskList_length])]
  rw [colMaskList_length]
  congr 1
  apply List.filter_congr
  intro j hj
  have hj2 : j < y := List.mem_range.mp hj
  have hg : (colMaskList m y).getD j false = (colSum m j != 0) := by
    have hjl : j < (colMaskList m y).length := by rw [colMaskList_length]; exact hj2
    rw [List.getD_eq_getElem _ _ hjl]
    simp [colMaskList]
  rw [hg]

theorem offsetStage_width (emb : T3 ℤ) (br : List ℤ) (yc y : ℕ)
    (h : ∀ mat ∈ emb, ∀ r ∈ mat, r.length = y) :
    ∀ r ∈ (offsetStage emb br yc).flatten, r.length = y := by
  intro r hr
  rw [List.mem_flatten] at hr
  obtain ⟨mat2, hmat2, hr2⟩ := hr
  simp only [offsetStage] at hmat2
  rw [List.mem_map] at hmat2
  obtain ⟨mb, hmb, hmat2⟩ := hmat2
  subst hmat2
  simp only [applyAddon] at hr2
  rw [List.mem_map] at hr2
  obtain ⟨row, hrow, hr2⟩ := hr2
  subst hr2
  rw [List.length_map]
  exact h mb.1 (List.of_mem_zip hmb).1 row hrow

theorem filterCols_rows (m : Mat ℤ) (y : ℕ) (hy : ∀ r ∈ m, r.length = y) :
    filterCols y m = m.map fun r => (keptCols m y).map fun j => r.getD j 0 := by
  unfold filterCols
  apply List.map_congr_left
  intro r hr
  exact maskFilter_colMask m y r 0 (hy r hr)

theorem colSum_filterCols (m : Mat ℤ) (y : ℕ) (hy : ∀ r ∈ m, r.length = y)
    (k : ℕ) (hk : k < (keptCols m y).length) :
    colSum (filterCols y m) k = colSum m ((keptCols m y).getD k 0) := by
  rw [filterCols_rows m y hy]
  unfold colSum
  rw [List.map_map]
  congr 1
  apply List.map_congr_left
  intro r hr
  have hk2 : k < ((keptCols m y).map fun j => r.getD j 0).length := by simpa using hk
  show ((keptCols m y).map fun j => r.getD j 0).getD k 0 = _
  rw [List.getD_eq_getElem _ _ hk2, List.getElem_map, List.getD_eq_getElem _ _ hk]

theorem maskFilter_of_all_true {α : Type} :
    ∀ (bs : List Bool) (xs : List α), (∀ b ∈ bs, b = true) →
      xs.length ≤ bs.length → maskFilter bs xs = xs := by
  intro bs
  induction bs with
  | nil =>
    intro xs h hlen
    cases xs with
    | nil => rfl
    | cons x xs2 => simp at hlen
  | cons b bs2 ih =>
    intro xs h hlen
    cases xs with
    | nil => rfl
    | cons x xs2 =>
      have hb : b = true := h b (by simp)
      subst hb
      show (if true then x :: maskFilter bs2 xs2 else maskFilter bs2 xs2) = x :: xs2
      rw [if_pos rfl]
      have := ih xs2 (fun b2 hb2 => h b2 (by simp [hb2])) (by simpa using hlen)
      rw [this]

theorem keptCols_spec (m : Mat ℤ) (y : ℕ) (j : ℕ) (hj : j ∈ keptCols m y) :
    colSum m j ≠ 0 := by
  unfold keptCols at hj
  rw [List.mem_filter] at hj
  simpa using hj.2

/-- C7: `flatten_embedding` drops exactly the columns of the row-flattened
adjacency whose column sum over all rows is zero (the surviving columns are
`keptCols`, in order), and the supplied edge tensor receives the identical
row-flatten (`edge.reshape(-1, *edge.shape[2:])`) and the identical column
filter, so position `k` of every returned adjacency row and position `k` of
every returned edge row both come from original column `keptCols[k]`. -/
theorem flatten_embedding_column_drop_alignment (emb : T3 ℤ) (e : T4 ℚ)
    (br : List ℤ)
    (hy : ∀ mat ∈ emb, ∀ r ∈ mat, r.length = yCntOf emb)
    (he : ∀ t ∈ e, ∀ mat ∈ t, mat.length = yCntOf emb) :
    (flatten_embedding emb br (some e)).2.1 =
      ((flatten_embedding emb br (some e)).1.flatten).map (fun r =>
        (keptCols ((flatten_embedding emb br (some e)).1.flatten)
          (yCntOf emb)).map fun j => r.getD j 0) ∧
    (flatten_embedding emb br (some e)).2.2 =
      some ((e.flatten).map fun mat =>
        (keptCols ((flatten_embedding emb br (some e)).1.flatten)
          (yCntOf emb)).map fun j => mat.getD j []) := by
  have h1 : (flatten_embedding emb br (some e)).1 =
      offsetStage emb br (yCntOf emb) := rfl
  have hadj : (flatten_embedding emb br (some e)).2.1 =
      filterCols (yCntOf emb) ((offsetStage emb br (yCntOf emb)).flatten) := rfl
  have hedge : (flatten_embedding emb br (some e)).2.2 =
      some ((e.flatten).map (maskFilter
        (colMaskList ((offsetStage emb br (yCntOf emb)).flatten) (yCntOf emb)))) :=
    rfl
  constructor
  · rw [hadj, h1]
    exact filterCols_rows _ _ (offsetStage_width emb br _ _ hy)
  · rw [hedge, h1]
    congr 1
    apply List.map_congr_left
    intro mat hmat
    have hlen : mat.length = yCntOf emb := by
      rw [List.mem_flatten] at hmat
      obtain ⟨t, ht, hm⟩ := hmat
      exact he t ht mat hm
    exact maskFilter_colMask _ _ mat [] hlen

/-- C7 witness: the alignment statement evaluated on a concrete batch of
two samples with one zero-sum column. -/
theorem flatten_embedding_column_drop_alignment_witness :
    ((flatten_embedding [[[(1 : ℤ), 0]], [[1, 0]]] [0, 1]
        (some [[[[1], [2]]], [[[3], [4]]]])).2.1 =
      ((flatten_embedding [[[(1 : ℤ), 0]], [[1, 0]]] [0, 1]
          (some [[[[1], [2]]], [[[3], [4]]]])).1.flatten).map (fun r =>
        (keptCols ((flatten_embedding [[[(1 : ℤ), 0]], [[1, 0]]] [0, 1]
            (some [[[[1], [2]]], [[[3], [4]]]])).1.flatten)
          (yCntOf [[[(1 : ℤ), 0]], [[1, 0]]])).map fun j => r.getD j 0)) ∧
    (flatten_embedding [[[(1 : ℤ), 0]], [[1, 0]]] [0, 1]
        (some [[[[1], [2]]], [[[3], [4]]]])).2.2 =
      some ((([[[[(1 : ℚ)], [2]]], [[[3], [4]]]] : T4 ℚ).flatten).map fun mat =>
        (keptCols ((flatten_embedding [[[(1 : ℤ), 0]], [[1, 0]]] [0, 1]
            (some [[[[1], [2]]], [[[3], [4]]]])).1.flatten)
          (yCntOf [[[(1 : ℤ), 0]], [[1, 0]]])).map fun j => mat.getD j []) :=
  flatten_embedding_column_drop_alignment [[[(1 : ℤ), 0]], [[1, 0]]]
    [[[[1], [2]]], [[[3], [4]]]] [0, 1] (by decide) (by decide)

/-- C8: the column compaction of `flatten_embedding` is idempotent: every
column of `filterCols y m` has a nonzero column sum, so re-applying the
column filter to the compacted output (with its own width) drops nothing. -/
theorem filterCols_idempotent (m : Mat ℤ) (y : ℕ)
    (hy : ∀ r ∈ m, r.length = y) :
    (∀ k < ((filterCols y m).headD []).length, colSum (filterCols y m) k ≠ 0) ∧
    filterCols (((filterCols y m).headD []).length) (filterCols y m) =
      filterCols y m := by
  cases m with
  | nil => exact ⟨by intro k hk; simp [filterCols] at hk, rfl⟩
  | cons r0 rest =>
    have hrows : filterCols y (r0 :: rest) =
        (r0 :: rest).map fun r => (keptCols (r0 :: rest) y).map fun j => r.getD j 0 :=
      filterCols_rows _ _ hy
    have hwidth : ((filterCols y (r0 :: rest)).headD []).length =
        (keptCols (r0 :: rest) y).length := by
      rw [hrows]
      simp
    have hcol : ∀ k < ((filterCols y (r0 :: rest)).headD []).length,
        colSum (filterCols y (r0 :: rest)) k ≠ 0 := by
      intro k hk
      rw [hwidth] at hk
      rw [colSum_filterCols _ _ hy k hk]
      apply keptCols_spec (r0 :: rest) y
      have : (keptCols (r0 :: rest) y).getD k 0 ∈ keptCols (r0 :: rest) y := by
        rw [List.getD_eq_getElem _ _ hk]
        exact List.getElem_mem hk
      exact this
    refine ⟨hcol, ?_⟩
    show (filterCols y (r0 :: rest)).map
        (maskFilter (colMaskList (filterCols y (r0 :: rest))
          (((filterCols y (r0 :: rest)).headD []).length))) =
      filterCols y (r0 :: rest)
    have hall : ∀ b ∈ colMaskList (filterCols y (r0 :: rest))
        (((filterCols y (r0 :: rest)).headD []).length), b = true := by
      intro b hb
      simp only [colMaskList] at hb
      rw [List.mem_map] at hb
      obtain ⟨j, hj, rfl⟩ := hb
      have hjy : j < ((filterCols y (r0 :: rest)).headD []).length :=
        List.mem_range.mp hj
      simpa using hcol j hjy
    have hrow2 : ∀ r ∈ filterCols y (r0 :: rest),
        maskFilter (colMaskList (filterCols y (r0 :: rest))
          (((filterCols y (r0 :: rest)).headD []).length)) r = r := by
      intro r hr
      apply maskFilter_of_all_true _ _ hall
      rw [colMaskList_length]
      rw [hrows] at hr
      rw [List.mem_map] at hr
      obtain ⟨r1, hr1, rfl⟩ := hr
      rw [List.length_map, hwidth]
    calc (filterCols y (r0 :: rest)).map
          (maskFilter (colMaskList (filterCols y (r0 :: rest))
            (((filterCols y (r0 :: rest)).headD []).length)))
        = (filterCols y (r0 :: rest)).map id := List.map_congr_left hrow2
      _ = filterCols y (r0 :: rest) := List.map_id _

/-- C8 witness: idempotence evaluated at the concrete flattened adjacency
`[[1, 0], [3, 0]]`. -/
theorem filterCols_idempotent_witness :
    colSum (filterCols 2 [[(1 : ℤ), 0], [3, 0]]) 0 ≠ 0 ∧
    filterCols (((filterCols 2 [[(1 : ℤ), 0], [3, 0]]).headD []).length)
        (filterCols 2 [[(1 : ℤ), 0], [3, 0]]) =
      filterCols 2 [[(1 : ℤ), 0], [3, 0]] :=
  ⟨(filterCols_idempotent [[(1 : ℤ), 0], [3, 0]] 2 (by decide)).1 0 (by decide),
    (filterCols_idempotent [[(1 : ℤ), 0], [3, 0]] 2 (by decide)).2⟩


/-- The offset stage with addon 0 leaves every entry unchanged. -/
theorem applyAddon_zero (m : Mat ℤ) : applyAddon 0 m = m := by
  unfold applyAddon
  have hx : ∀ x : ℤ, restoreZero (x == 0) (offsetEntry 0 x) = x := by
    intro x
    rcases eq_or_ne x 0 with h | h <;> simp [restoreZero, offsetEntry, h]
  calc m.map (fun row => row.map fun x => restoreZero (x == 0) (offsetEntry 0 x))
      = m.map id :=
        List.map_congr_left (fun row _ => by
          calc row.map (fun x => restoreZero (x == 0) (offsetEntry 0 x))
              = row.map id := List.map_congr_left (fun x _ => hx x)
            _ = row := List.map_id row)
    _ = m := List.map_id m

/-- C2 (amended): for single (rank-3) inputs, which `union` normalises to a
batch of size 1 with a zero offset, the input arrays are unchanged by the
call and a repeated call on the same state returns the same output; the
original claim fails for explicit batches of size 2 or more, where the
in-place offset of `flatten_embedding` mutates the aliased `po`/`vo`
buffers (see the counterexample). -/
theorem union_pure_single_input (cfg : Config) (s : SState) (hv : s.v ≠ []) :
    (union cfg (Sum.inl s)).2 = Sum.inl s ∧
    (union cfg ((union cfg (Sum.inl s)).2)).1 = (union cfg (Sum.inl s)).1 := by
  have hbatch : ((expandState s).v.headD []).length = 1 := by
    cases hsv : s.v with
    | nil => exact absurd hsv hv
    | cons a t => simp [expandState, hsv]
  have h2 : ∀ (m : Mat ℤ) (e : T4 ℚ), (flatten_embedding [m] [0] (some e)).1 = [m] := by
    intro m e
    show [applyAddon ((0 : ℤ) * (yCntOf [m] : ℤ)) m] = [m]
    rw [zero_mul, applyAddon_zero]
  have hbuf : (unionB cfg (expandState s)).2 = expandState s := by
    show ({ expandState s with
        vo := (flatten_embedding (expandState s).vo
          ((List.range ((expandState s).v.headD []).length).map Int.ofNat)
          (some (expandState s).vedge)).1,
        po := (flatten_embedding (expandState s).po
          ((List.range ((expandState s).v.headD []).length).map Int.ofNat)
          (some (expandState s).pedge)).1 } : BState) = expandState s
    rw [hbatch]
    have hr1 : (List.range 1).map Int.ofNat = [0] := by decide
    rw [hr1]
    rw [show (expandState s).vo = [s.vo] from rfl, show (expandState s).po = [s.po] from rfl]
    rw [h2 s.vo (expandState s).vedge, h2 s.po (expandState s).pedge]
    rfl
  have h1 : (union cfg (Sum.inl s)).2 = Sum.inl s := by
    show Sum.inl { s with
        vo := (unionB cfg (expandState s)).2.vo.headD [],
        po := (unionB cfg (expandState s)).2.po.headD [] } = Sum.inl s
    rw [hbuf]
    rfl
  exact ⟨h1, by rw [h1]⟩

/-- C2 counterexample: on a concrete batch-2 state, `union` mutates the
input state's adjacency buffers in place (the post-call `vo`/`po` differ
from the input), and calling `union` again on the same (now mutated) state
yields a different output graph than the first call. -/
theorem union_mutates_input_counterexample :
    (union unionCfgC (Sum.inr unionStC)).2 ≠ Sum.inr unionStC ∧
    (union unionCfgC ((union unionCfgC (Sum.inr unionStC)).2)).1 ≠
      (union unionCfgC (Sum.inr unionStC)).1 :=
  ⟨by decide, by decide⟩

/-- C2 witness: the amended single-input purity applied to a concrete
single sample. -/
theorem union_pure_single_input_witness :
    (union unionCfgC (Sum.inl unionSW)).2 = Sum.inl unionSW ∧
    (union unionCfgC ((union unionCfgC (Sum.inl unionSW)).2)).1 =
      (union unionCfgC (Sum.inl unionSW)).1 :=
  union_pure_single_input unionCfgC unionSW (by decide)

/-- C5: in the end-to-end scenario (`value_discount` derived from a config
with `reward_discount = 1`, `returns = [5, 5]`, `values = [[1,1],[1,1]]`,
`values_next = [[0,0],[0,0]]`), the per-port advantage before any entropy
adjustment is `[[4,4],[4,4]]` and
`critic_loss = mean(sum_over_ports(advantage^2)) = 32`. -/
theorem learn_concrete_advantage_critic_loss :
    advantageBase (mkConfig [[0, 1], [1, 0]] 1 1 (1/10) 0).value_discount
        [5, 5] [[1, 1], [1, 1]] [[0, 0], [0, 0]] = [[4, 4], [4, 4]] ∧
    criticLoss (advantageBase (mkConfig [[0, 1], [1, 0]] 1 1 (1/10) 0).value_discount
        [5, 5] [[1, 1], [1, 1]] [[0, 0], [0, 0]]) = 32 := by
  have hvd : (mkConfig [[0, 1], [1, 0]] 1 1 (1/10) 0).value_discount = 1 := by
    show (1 : ℚ) ^ 100 = 1
    norm_num
  have hstep : advantageBase 1 [5, 5] [[1, 1], [1, 1]] [[0, 0], [0, 0]] =
      [[5 + 1 * 0 - 1, 5 + 1 * 0 - 1], [5 + 1 * 0 - 1, 5 + 1 * 0 - 1]] := rfl
  have harith : (5 : ℚ) + 1 * 0 - 1 = 4 := by norm_num
  rw [hvd, hstep, harith]
  refine ⟨rfl, ?_⟩
  simp [criticLoss, listMean, List.sum_cons, List.sum_nil]
  norm_num

/-- C6: with `entropy_factor = 0` the entropy branch of `learn` is skipped
outright and the advantage tensor is returned unchanged; with
`entropy_factor ≠ 0`, `entropy_factor * entropy[b]` is added exactly to the
column at the acting port index `p_idx` and every other column is left
unchanged. -/
theorem learn_entropy_adjustment :
    (∀ (pIdx : ℕ) (ent : List ℚ) (adv : Mat ℚ),
      advantageAdjusted 0 pIdx ent adv = adv) ∧
    (∀ (ef : ℚ) (pIdx : ℕ) (ent : List ℚ) (adv : Mat ℚ) (b p : ℕ),
      ef ≠ 0 → b < adv.length → b < ent.length →
      entry2 (advantageAdjusted ef pIdx ent adv) b p =
        if p = pIdx ∧ p < (adv.getD b []).length
        then entry2 adv b p + ef * ent.getD b 0
        else entry2 adv b p) := by
  constructor
  · intro pIdx ent adv
    simp [advantageAdjusted]
  · intro ef pIdx ent adv b p hef hb hbe
    unfold advantageAdjusted
    rw [if_pos hef]
    unfold entry2
    rw [getD_map_zip _ adv ent b [] [] 0 hb hbe]
    rcases Nat.lt_or_ge p (adv.getD b []).length with hp | hp
    · have hp2 : p < (List.range (adv.getD b []).length).length := by simpa using hp
      rw [getD_map_zip _ (adv.getD b []) (List.range (adv.getD b []).length) p 0 0 0 hp hp2]
      have hr : (List.range (adv.getD b []).length).getD p 0 = p := by
        rw [List.getD_eq_getElem _ _ hp2, List.getElem_range]
      rw [hr]
      by_cases hpi : p = pIdx
      · rw [if_pos hpi, if_pos ⟨hpi, hp⟩]
      · rw [if_neg hpi, if_neg (by tauto)]
    · have hlen : (((adv.getD b []).zip (List.range (adv.getD b []).length)).map
          fun xp => if xp.2 = pIdx then xp.1 + ef * ent.getD b 0 else xp.1).length ≤ p := by
        rw [List.length_map, List.length_zip, List.length_range, min_self]
        exact hp
      rw [List.getD_eq_default _ _ hlen]
      rw [List.getD_eq_default _ _ hp]
      rw [if_neg (fun hcon => absurd hcon.2 (not_lt.mpr hp))]

/-- C6 witness: the column characterisation evaluated at `ef = 1`,
`p_idx = 0`, on the row `[3, 4]` at column 1. -/
theorem learn_entropy_adjustment_witness :
    entry2 (advantageAdjusted 1 0 [2] [[3, 4]]) 0 1 =
      if (1 : ℕ) = 0 ∧ 1 < (([[(3 : ℚ), 4]] : Mat ℚ).getD 0 []).length
      then entry2 [[3, 4]] 0 1 + 1 * ([(2 : ℚ)] : List ℚ).getD 0 0
      else entry2 [[3, 4]] 0 1 :=
  learn_entropy_adjustment.2 1 0 [2] [[3, 4]] 0 1 (by norm_num) (by decide)
    (by decide)

/-- C9: `choose_action` on a single (rank-3) sample returns exactly the
batch-of-1 result of `choose_action` on the expanded state, with the batch
axis unwrapped (`action[0]`, `log_p[0]`); the batched graph (hence the
distribution parameters fed to the model) is identical in both calls, and
the sampled action and log-probability formula coincide for any model,
sampling draw and logarithm. -/
theorem choose_action_single_batch_equiv (cfg : Config)
    (model : Graph → ℕ → ℕ → Mat ℚ) (sample : Mat ℚ → List ℕ)
    (logFn : ℚ → ℚ) (s : SState) (a : List ℕ) (lp : List ℚ)
    (h : choose_action cfg model sample logFn (Sum.inr (expandState s)) =
      Sum.inr (a, lp)) :
    choose_action cfg model sample logFn (Sum.inl s) =
      Sum.inl (a.getD 0 0, lp.getD 0 0) ∧
    (union cfg (Sum.inl s)).1 = (union cfg (Sum.inr (expandState s))).1 := by
  refine ⟨?_, rfl⟩
  simp only [choose_action, Sum.inr.injEq, Prod.mk.injEq] at h
  obtain ⟨ha, hlp⟩ := h
  subst ha
  subst hlp
  rfl

/-- C9 witness: the equivalence applied to a concrete single sample with a
constant model and a deterministic draw. -/
theorem choose_action_single_batch_equiv_witness :
    choose_action unionCfgC (fun _ _ _ => [[1]]) (fun _ => [0]) (fun _ => 0)
        (Sum.inl unionSW) =
      Sum.inl (([0] : List ℕ).getD 0 0, ([(0 : ℚ)] : List ℚ).getD 0 0) ∧
    (union unionCfgC (Sum.inl unionSW)).1 =
      (union unionCfgC (Sum.inr (expandState unionSW))).1 :=
  choose_action_single_batch_equiv unionCfgC (fun _ _ _ => [[1]]) (fun _ => [0])
    (fun _ => 0) unionSW [0] [0] rfl

end GnnAC
